import Mathlib

/-!
Verification of the Package-Optimizer engine (`internal/domain/optimizer.go`).

The Go source is shallowly embedded below: `NewOptimizer` (catalog construction,
including its panic behavior), `Optimize` (input validation and result assembly)
and `findOptimalSolution` (the dynamic program over reachable sums, modelled by
`fillTable`/`scanBest` with the dp and breakdown tables as functions on indices).
Quantities and sizes are machine ints in Go; all values involved are small and
non-negative on the validated paths, so they are modelled by `Nat` internally
with `Int` at the `Optimize` boundary, exactly where Go validates signs.
-/

namespace PackageOptimizer

/-- Mirrors the Go struct `PackageCount { Size, Count int }` (both fields are
non-negative in every reachable state). -/
structure PackageCount where
  size : Nat
  count : Nat
deriving DecidableEq, Repr

/-- Mirrors the Go struct `OptimizationResult`. The Go field `Packages` is a
`map[string]int` whose keys are decimal renderings of package sizes (an injective
encoding); it is modelled as the association list from size to count in the
order the Go code inserts entries. -/
structure OptimizationResult where
  requested : Int
  totalDelivered : Int
  overDelivery : Int
  packages : List PackageCount
deriving DecidableEq, Repr

/-- Outcome of `NewOptimizer`: the Go constructor either panics (an unrecoverable
abort, distinguished here from any returned value) or returns an optimizer whose
only field is the sorted catalog. -/
inductive ConstructOutcome where
  | panics (msg : String)
  | ok (packageSizes : List Nat)
deriving DecidableEq, Repr

/-- `sort.Sort(sort.Reverse(sort.IntSlice(sizes)))`: sort into descending order.
Go's sort is unstable, but on integers the output list is uniquely determined,
so any sorting function models it. -/
def sortDesc (l : List Nat) : List Nat := l.insertionSort (fun a b => b ≤ a)

/-- Embedding of `NewOptimizer`: panic on an empty list, panic on a non-positive
size, otherwise store a descending-sorted copy of the input. -/
def NewOptimizer (packageSizes : List Int) : ConstructOutcome :=
  if packageSizes.length = 0 then .panics "package sizes cannot be empty"
  else if packageSizes.any (fun s => decide (s ≤ 0)) then .panics "package sizes must be positive"
  else .ok (sortDesc (packageSizes.map Int.toNat))

/-- The breakdown update of `findOptimalSolution`: copy the breakdown and
increment the count of the first entry matching size `s`, appending `{s, 1}`
when no entry matches. -/
def addPackage (pkgs : List PackageCount) (s : Nat) : List PackageCount :=
  match pkgs with
  | [] => [⟨s, 1⟩]
  | p :: rest =>
    if p.size = s then ⟨p.size, p.count + 1⟩ :: rest
    else p :: addPackage rest s

/-- The DP state of `findOptimalSolution`: the `dp` array and the
`packageCounts` array, modelled as functions on indices (the Go code only ever
reads and writes indices `0..maxQuantity`, so the functional view is faithful).
An unset `packageCounts[i]` is Go `nil`, modelled as `[]`. -/
abbrev DPState := (Nat → Nat) × (Nat → List PackageCount)

/-- One iteration of the inner loop of `findOptimalSolution`: try package size
`s` at row `i`. `st.1 (i - s) + (i - q)` is Go's
`dp[remaining] + max(0, i-quantity)` (truncated subtraction is exactly the
`max`), and the update guard is Go's strict-improvement-or-tie condition. -/
def tryPackage (q inf i : Nat) (st : DPState) (s : Nat) : DPState :=
  if s ≤ i then
    if st.1 (i - s) ≠ inf then
      if st.1 (i - s) + (i - q) < st.1 i ∨
          (st.1 (i - s) + (i - q) = st.1 i ∧ (st.2 (i - s)).length + 1 < (st.2 i).length) then
        (fun j => if j = i then st.1 (i - s) + (i - q) else st.1 j,
         fun j => if j = i then addPackage (st.2 (i - s)) s else st.2 j)
      else st
    else st
  else st

/-- The inner loop of `findOptimalSolution`: all package sizes at row `i`, in
catalog order. -/
def fillRow (S : List Nat) (q inf i : Nat) (st : DPState) : DPState :=
  S.foldl (tryPackage q inf i) st

/-- The outer loop of `findOptimalSolution`: rows `1..n` of the DP table over the
initial table `dp[0] = 0`, every other entry at the sentinel `inf`. -/
def fillTable (S : List Nat) (q inf : Nat) : Nat → DPState
  | 0 => (fun j => if j = 0 then 0 else inf, fun _ => ([] : List PackageCount))
  | n + 1 => fillRow S q inf (n + 1) (fillTable S q inf n)

/-- One iteration of the final scan of `findOptimalSolution` (Go keeps
`bestOverDelivery = dp[bestQuantity]` in sync, so comparing through `dp` is the
same computation). -/
def scanStep (dp : Nat → Nat) (pc : Nat → List PackageCount) (best i : Nat) : Nat :=
  if dp i < dp best ∨ (dp i = dp best ∧ (pc i).length < (pc best).length) then i else best

/-- The final scan of `findOptimalSolution`: candidates `q+1 .. q+M` against the
initial best `q`. -/
def scanBest (dp : Nat → Nat) (pc : Nat → List PackageCount) (q M : Nat) : Nat :=
  (List.range' (q + 1) M).foldl (scanStep dp pc) q

/-- Embedding of `findOptimalSolution`: the chosen delivered quantity together
with its package breakdown. `S.headD 0` is Go's `o.packageSizes[0]` (the largest
size after the constructor's descending sort). -/
def findOptimalSolution (S : List Nat) (q : Nat) : Nat × List PackageCount :=
  let M := S.headD 0
  let maxQ := q + M
  let inf := maxQ + 1
  let st := fillTable S q inf maxQ
  let best := scanBest st.1 st.2 q M
  (best, st.2 best)

/-- Embedding of the `Optimize` method: validate the sign, short-circuit zero,
otherwise run the DP and keep only breakdown entries with positive count. -/
def Optimize (S : List Nat) (quantity : Int) : Except String OptimizationResult :=
  if quantity < 0 then
    .error ("quantity must be non-negative, got " ++ toString quantity)
  else if quantity = 0 then
    .ok ⟨0, 0, 0, []⟩
  else
    let sol := findOptimalSolution S quantity.toNat
    .ok ⟨quantity, (sol.1 : Int), (sol.1 : Int) - quantity,
         sol.2.filter (fun p => decide (0 < p.count))⟩

/-- Store-level view of `NewOptimizer` for the frame claim: the pair is
(outcome, caller's slice after the call). The Go code allocates a fresh slice,
copies `packageSizes` into it and sorts only the copy, so the caller's slice
still holds the original elements in the original order — that translation
decision is recorded by the second component. -/
def NewOptimizerWithCaller (packageSizes : List Int) : ConstructOutcome × List Int :=
  (NewOptimizer packageSizes, packageSizes)

/-- Store-level view of `Optimize` for the frame claim: the pair is
(result, the optimizer's `packageSizes` field after the call). The Go method
never assigns to `o.packageSizes` and passes it to no mutating operation
(`findOptimalSolution` only reads it and writes fresh local arrays), so the
stored catalog after the call is the catalog before it. -/
def OptimizeWithState (S : List Nat) (quantity : Int) :
    Except String OptimizationResult × List Nat :=
  (Optimize S quantity, S)

/-- `n` is expressible as a non-negative integer combination of catalog sizes:
some finite list of sizes drawn from `S` (with repetition) sums to `n`. The
length of such a list is the total package count of the combination. -/
def Expressible (S : List Nat) (n : Nat) : Prop :=
  ∃ c : List Nat, (∀ x ∈ c, x ∈ S) ∧ c.sum = n

/-- Total quantity delivered by a breakdown: sum of size × count. -/
def pcSum (l : List PackageCount) : Nat :=
  (l.map (fun p => p.size * p.count)).sum

/-- Total number of packages used by a breakdown: sum of the counts. -/
def totalCount (l : List PackageCount) : Nat :=
  (l.map (fun p => p.count)).sum

/-! ### Lemmas about `addPackage` -/

theorem addPackage_pcSum (l : List PackageCount) (s : Nat) :
    pcSum (addPackage l s) = pcSum l + s := by
  induction l with
  | nil => simp [addPackage, pcSum]
  | cons p rest ih =>
    by_cases h : p.size = s
    · simp only [addPackage, if_pos h, pcSum, List.map_cons, List.sum_cons]
      subst h
      ring
    · simp only [addPackage, if_neg h, pcSum, List.map_cons, List.sum_cons] at ih ⊢
      rw [ih]
      ring

theorem addPackage_sizes (l : List PackageCount) (s : Nat) :
    (addPackage l s).map (fun p => p.size) =
      if s ∈ l.map (fun p => p.size) then l.map (fun p => p.size)
      else l.map (fun p => p.size) ++ [s] := by
  induction l with
  | nil => simp [addPackage]
  | cons p rest ih =>
    by_cases h : p.size = s
    · simp [addPackage, if_pos h, h]
    · simp only [addPackage, if_neg h, List.map_cons, ih, List.mem_cons]
      by_cases hmem : s ∈ rest.map (fun p => p.size)
      · rw [if_pos hmem, if_pos (Or.inr hmem)]
      · rw [if_neg hmem, if_neg ?_, List.cons_append]
        rintro (h1 | h2)
        · exact h h1.symm
        · exact hmem h2

theorem addPackage_nodup (l : List PackageCount) (s : Nat)
    (h : (l.map (fun p => p.size)).Nodup) :
    ((addPackage l s).map (fun p => p.size)).Nodup := by
  rw [addPackage_sizes]
  by_cases hmem : s ∈ l.map (fun p => p.size)
  · rwa [if_pos hmem]
  · rw [if_neg hmem]
    simp [List.nodup_append, h, hmem]

theorem addPackage_forall {P : PackageCount → Prop} (l : List PackageCount) (s : Nat)
    (hl : ∀ p ∈ l, P p) (hstep : ∀ sz c, P ⟨sz, c⟩ → P ⟨sz, c + 1⟩) (hnew : P ⟨s, 1⟩) :
    ∀ p ∈ addPackage l s, P p := by
  induction l with
  | nil =>
    intro p hp
    simp only [addPackage, List.mem_singleton] at hp
    subst hp
    exact hnew
  | cons hd rest ih =>
    intro p hp
    by_cases h : hd.size = s
    · simp only [addPackage, if_pos h] at hp
      rcases List.mem_cons.mp hp with h1 | h2
      · subst h1
        exact hstep hd.size hd.count (hl hd (List.mem_cons_self _ _))
      · exact hl p (List.mem_cons_of_mem _ h2)
    · simp only [addPackage, if_neg h] at hp
      rcases List.mem_cons.mp hp with h1 | h2
      · subst h1
        exact hl p (List.mem_cons_self _ _)
      · exact ih (fun x hx => hl x (List.mem_cons_of_mem _ hx)) p h2

/-! ### Lemmas about `Expressible` -/

theorem expressible_zero (S : List Nat) : Expressible S 0 :=
  ⟨[], by simp, rfl⟩

theorem expressible_add (S : List Nat) (n s : Nat) (hs : s ∈ S) (h : Expressible S n) :
    Expressible S (n + s) := by
  obtain ⟨c, hc, hsum⟩ := h
  refine ⟨s :: c, ?_, ?_⟩
  · intro x hx
    rcases List.mem_cons.mp hx with rfl | hx
    · exact hs
    · exact hc x hx
  · simp [List.sum_cons, hsum, Nat.add_comm]

theorem expressible_sub (S : List Nat) (n : Nat) (hn : Expressible S n) (h0 : 0 < n) :
    ∃ s ∈ S, s ≤ n ∧ Expressible S (n - s) := by
  obtain ⟨c, hc, hsum⟩ := hn
  have hne : c ≠ [] := by
    rintro rfl
    simp at hsum
    omega
  obtain ⟨s, hs⟩ := List.exists_mem_of_ne_nil c hne
  have hle : s ≤ n := by
    rw [← hsum]
    exact List.single_le_sum (fun x _ => Nat.zero_le x) s hs
  refine ⟨s, hc s hs, hle, c.erase s, fun x hx => hc x (List.mem_of_mem_erase hx), ?_⟩
  have hperm : c.sum = s + (c.erase s).sum := by
    rw [(List.perm_cons_erase hs).sum_eq, List.sum_cons]
  omega

theorem expressible_mul (S : List Nat) (M : Nat) (hM : M ∈ S) (k : Nat) :
    Expressible S (k * M) :=
  ⟨List.replicate k M, fun x hx => by rw [List.eq_of_mem_replicate hx]; exact hM,
   by simp [List.sum_replicate, smul_eq_mul]⟩

theorem exists_multiple_ge (q M : Nat) (hM : 0 < M) :
    ∃ k, q ≤ k * M ∧ k * M ≤ q + (M - 1) := by
  have hdm : M * (q / M) + q % M = q := Nat.div_add_mod q M
  have hmod : q % M < M := Nat.mod_lt q hM
  obtain ⟨d, hd⟩ : ∃ d, M * (q / M) = d := ⟨_, rfl⟩
  rw [hd] at hdm
  by_cases h : q % M = 0
  · refine ⟨q / M, ?_, ?_⟩ <;> rw [Nat.mul_comm, hd] <;> omega
  · refine ⟨q / M + 1, ?_, ?_⟩ <;> rw [Nat.add_mul, Nat.one_mul, Nat.mul_comm, hd] <;> omega

/-! ### Lemmas about one row of the DP table (`tryPackage`, `fillRow`) -/

theorem tryPackage_frame (q inf i : Nat) (st : DPState) (s : Nat) (j : Nat) (hj : j ≠ i) :
    (tryPackage q inf i st s).1 j = st.1 j ∧ (tryPackage q inf i st s).2 j = st.2 j := by
  unfold tryPackage
  split_ifs <;> simp [hj]

theorem tryPackage_dp_le (q inf i : Nat) (st : DPState) (s : Nat) :
    (tryPackage q inf i st s).1 i ≤ st.1 i := by
  unfold tryPackage
  split_ifs with h1 h2 h3
  · simp only [if_true]
    rcases h3 with h | h
    · exact Nat.le_of_lt h
    · exact Nat.le_of_eq h.1
  all_goals exact Nat.le_refl _

theorem foldl_tryPackage_frame (q inf i : Nat) :
    ∀ (L : List Nat) (st : DPState) (j : Nat), j ≠ i →
      (L.foldl (tryPackage q inf i) st).1 j = st.1 j ∧
      (L.foldl (tryPackage q inf i) st).2 j = st.2 j := by
  intro L
  induction L with
  | nil => exact fun st j _ => ⟨rfl, rfl⟩
  | cons a L ih =>
    intro st j hj
    simp only [List.foldl_cons]
    obtain ⟨h1, h2⟩ := ih (tryPackage q inf i st a) j hj
    obtain ⟨g1, g2⟩ := tryPackage_frame q inf i st a j hj
    exact ⟨h1.trans g1, h2.trans g2⟩

theorem foldl_tryPackage_mono (q inf i : Nat) :
    ∀ (L : List Nat) (st : DPState), (L.foldl (tryPackage q inf i) st).1 i ≤ st.1 i := by
  intro L
  induction L with
  | nil => exact fun st => Nat.le_refl _
  | cons a L ih =>
    intro st
    simp only [List.foldl_cons]
    exact (ih (tryPackage q inf i st a)).trans (tryPackage_dp_le q inf i st a)

theorem foldl_tryPackage_le (q inf i : Nat) :
    ∀ (L : List Nat) (st : DPState) (s : Nat), (∀ x ∈ L, 0 < x) → s ∈ L → s ≤ i →
      st.1 (i - s) ≠ inf →
      (L.foldl (tryPackage q inf i) st).1 i ≤ st.1 (i - s) + (i - q) := by
  intro L
  induction L with
  | nil =>
    intro st s _ hmem
    exact absurd hmem (List.not_mem_nil s)
  | cons a L ih =>
    intro st s hpos hmem hsi hne
    simp only [List.foldl_cons]
    rcases List.mem_cons.mp hmem with rfl | hmem'
    · have hstep : (tryPackage q inf i st s).1 i ≤ st.1 (i - s) + (i - q) := by
        unfold tryPackage
        rw [if_pos hsi, if_pos hne]
        split_ifs with h3
        · simp only [if_true]
          exact Nat.le_refl _
        · push_neg at h3
          exact h3.1
      exact (foldl_tryPackage_mono q inf i L _).trans hstep
    · have hs0 : 0 < s := hpos s (List.mem_cons_of_mem _ hmem')
      have hsub : i - s ≠ i := by omega
      have hframe := (tryPackage_frame q inf i st a (i - s) hsub).1
      have := ih (tryPackage q inf i st a) s
        (fun x hx => hpos x (List.mem_cons_of_mem _ hx)) hmem' hsi
        (by rw [hframe]; exact hne)
      rw [hframe] at this
      exact this

theorem foldl_tryPackage_cases (q inf i : Nat) (S : List Nat) (st0 : DPState) :
    ∀ (L : List Nat), (∀ x ∈ L, x ∈ S) → (∀ x ∈ L, 0 < x) →
    ∀ st : DPState, (∀ j, j ≠ i → st.1 j = st0.1 j ∧ st.2 j = st0.2 j) →
    ((st.1 i = inf ∧ st.2 i = []) ∨
      (∃ s, s ∈ S ∧ s ≤ i ∧ st0.1 (i - s) ≠ inf ∧
        st.1 i = st0.1 (i - s) + (i - q) ∧ st.2 i = addPackage (st0.2 (i - s)) s ∧
        st.1 i < inf)) →
    (((L.foldl (tryPackage q inf i) st).1 i = inf ∧
        (L.foldl (tryPackage q inf i) st).2 i = []) ∨
      (∃ s, s ∈ S ∧ s ≤ i ∧ st0.1 (i - s) ≠ inf ∧
        (L.foldl (tryPackage q inf i) st).1 i = st0.1 (i - s) + (i - q) ∧
        (L.foldl (tryPackage q inf i) st).2 i = addPackage (st0.2 (i - s)) s ∧
        (L.foldl (tryPackage q inf i) st).1 i < inf)) := by
  intro L
  induction L with
  | nil => exact fun _ _ st _ h => h
  | cons a L ih =>
    intro hmemS hpos st hframe hdisj
    simp only [List.foldl_cons]
    have ha0 : 0 < a := hpos a (List.mem_cons_self _ _)
    have haS : a ∈ S := hmemS a (List.mem_cons_self _ _)
    refine ih (fun x hx => hmemS x (List.mem_cons_of_mem _ hx))
      (fun x hx => hpos x (List.mem_cons_of_mem _ hx))
      (tryPackage q inf i st a) ?_ ?_
    · intro j hj
      obtain ⟨g1, g2⟩ := tryPackage_frame q inf i st a j hj
      obtain ⟨f1, f2⟩ := hframe j hj
      exact ⟨g1.trans f1, g2.trans f2⟩
    · unfold tryPackage
      split_ifs with h1 h2 h3
      · have hsub : i - a ≠ i := by omega
        obtain ⟨f1, f2⟩ := hframe (i - a) hsub
        have hlt : st.1 (i - a) + (i - q) < inf := by
          rcases hdisj with ⟨hd, hp⟩ | ⟨s, _, _, _, hd, hp, hltinf⟩
          · rcases h3 with h | h
            · rw [hd] at h
              exact h
            · rw [hp] at h
              exact absurd h.2 (by simp)
          · rcases h3 with h | h
            · exact h.trans hltinf
            · rw [h.1]
              exact hltinf
        right
        refine ⟨a, haS, h1, ?_, ?_, ?_, ?_⟩
        · rw [← f1]; exact h2
        · simp only [if_true]
          rw [f1]
        · simp only [if_true]
          rw [f2]
        · simp only [if_true]
          rw [f1]
          rw [f1] at hlt
          exact hlt
      · exact hdisj
      · exact hdisj
      · exact hdisj

theorem fillRow_spec (q inf i : Nat) (S : List Nat) (hS : ∀ x ∈ S, 0 < x) (st0 : DPState)
    (hdp : st0.1 i = inf) (hpc : st0.2 i = []) :
    ((fillRow S q inf i st0).1 i = inf ∧ (fillRow S q inf i st0).2 i = []) ∨
      (∃ s, s ∈ S ∧ s ≤ i ∧ st0.1 (i - s) ≠ inf ∧
        (fillRow S q inf i st0).1 i = st0.1 (i - s) + (i - q) ∧
        (fillRow S q inf i st0).2 i = addPackage (st0.2 (i - s)) s ∧
        (fillRow S q inf i st0).1 i < inf) :=
  foldl_tryPackage_cases q inf i S st0 S (fun _ h => h) hS st0
    (fun _ _ => ⟨rfl, rfl⟩) (Or.inl ⟨hdp, hpc⟩)

/-! ### Lemmas about the full DP table (`fillTable`) -/

theorem fillTable_untouched (S : List Nat) (q inf : Nat) :
    ∀ n j, n < j → (fillTable S q inf n).1 j = inf ∧ (fillTable S q inf n).2 j = [] := by
  intro n
  induction n with
  | zero =>
    intro j hj
    refine ⟨?_, rfl⟩
    simp only [fillTable]
    rw [if_neg (by omega)]
  | succ n ih =>
    intro j hj
    have hji : j ≠ n + 1 := by omega
    simp only [fillTable, fillRow]
    obtain ⟨h1, h2⟩ := foldl_tryPackage_frame q inf (n + 1) S (fillTable S q inf n) j hji
    obtain ⟨g1, g2⟩ := ih j (by omega)
    exact ⟨h1.trans g1, h2.trans g2⟩

theorem fillTable_stable (S : List Nat) (q inf : Nat) (n : Nat) :
    ∀ m, n ≤ m → ∀ j, j ≤ n →
      (fillTable S q inf m).1 j = (fillTable S q inf n).1 j ∧
      (fillTable S q inf m).2 j = (fillTable S q inf n).2 j := by
  intro m hm
  induction m, hm using Nat.le_induction with
  | base => exact fun j _ => ⟨rfl, rfl⟩
  | succ m hm ih =>
    intro j hj
    have hji : j ≠ m + 1 := by omega
    simp only [fillTable, fillRow]
    obtain ⟨h1, h2⟩ := foldl_tryPackage_frame q inf (m + 1) S (fillTable S q inf m) j hji
    obtain ⟨g1, g2⟩ := ih j hj
    exact ⟨h1.trans g1, h2.trans g2⟩

/-- Final value of `dp[j]`: after row `j`, later rows no longer touch index `j`. -/
def dpVal (S : List Nat) (q inf j : Nat) : Nat := (fillTable S q inf j).1 j

/-- Final value of `packageCounts[j]`. -/
def pcVal (S : List Nat) (q inf j : Nat) : List PackageCount := (fillTable S q inf j).2 j

theorem fillTable_eq_dpVal (S : List Nat) (q inf n j : Nat) (h : j ≤ n) :
    (fillTable S q inf n).1 j = dpVal S q inf j ∧
    (fillTable S q inf n).2 j = pcVal S q inf j :=
  fillTable_stable S q inf j n h j (Nat.le_refl j)

theorem dpVal_le (S : List Nat) (hS : ∀ x ∈ S, 0 < x) (q inf j s : Nat) (hj : 0 < j)
    (hs : s ∈ S) (hsi : s ≤ j) (hne : dpVal S q inf (j - s) ≠ inf) :
    dpVal S q inf j ≤ dpVal S q inf (j - s) + (j - q) := by
  obtain ⟨n, rfl⟩ : ∃ n, j = n + 1 := ⟨j - 1, by omega⟩
  have hs0 : 0 < s := hS s hs
  have hstable := (fillTable_eq_dpVal S q inf n (n + 1 - s) (by omega)).1
  show (fillTable S q inf (n + 1)).1 (n + 1) ≤ _
  simp only [fillTable, fillRow]
  have := foldl_tryPackage_le q inf (n + 1) S (fillTable S q inf n) s hS hs hsi
    (by rw [hstable]; exact hne)
  rw [hstable] at this
  exact this

theorem dpVal_row_cases (S : List Nat) (hS : ∀ x ∈ S, 0 < x) (q inf n : Nat) :
    (dpVal S q inf (n + 1) = inf ∧ pcVal S q inf (n + 1) = []) ∨
      (∃ s, s ∈ S ∧ s ≤ n + 1 ∧ dpVal S q inf (n + 1 - s) ≠ inf ∧
        dpVal S q inf (n + 1) = dpVal S q inf (n + 1 - s) + (n + 1 - q) ∧
        pcVal S q inf (n + 1) = addPackage (pcVal S q inf (n + 1 - s)) s ∧
        dpVal S q inf (n + 1) < inf) := by
  have huntouched := fillTable_untouched S q inf n (n + 1) (by omega)
  have hrow := fillRow_spec q inf (n + 1) S hS (fillTable S q inf n)
    huntouched.1 huntouched.2
  have hdp : dpVal S q inf (n + 1) = (fillRow S q inf (n + 1) (fillTable S q inf n)).1 (n + 1) :=
    rfl
  have hpc : pcVal S q inf (n + 1) = (fillRow S q inf (n + 1) (fillTable S q inf n)).2 (n + 1) :=
    rfl
  rcases hrow with ⟨h1, h2⟩ | ⟨s, hsS, hsi, hne, hd, hp, hlt⟩
  · left
    rw [hdp, hpc]
    exact ⟨h1, h2⟩
  · right
    have hs0 : 0 < s := hS s hsS
    have hstable := fillTable_eq_dpVal S q inf n (n + 1 - s) (by omega)
    rw [hstable.1] at hne hd
    rw [hstable.2] at hp
    rw [hdp, hpc]
    exact ⟨s, hsS, hsi, hne, hd, hp, hlt⟩

theorem dp_invariant (S : List Nat) (hS : ∀ x ∈ S, 0 < x) (q inf : Nat) (hinf : 0 < inf) :
    ∀ j, (dpVal S q inf j = inf ∧ pcVal S q inf j = []) ∨
      (dpVal S q inf j < inf ∧ Expressible S j ∧ j - q ≤ dpVal S q inf j ∧
        pcSum (pcVal S q inf j) = j ∧
        ((pcVal S q inf j).map (fun p => p.size)).Nodup ∧
        ∀ p ∈ pcVal S q inf j, 0 < p.count ∧ p.size ∈ S) := by
  intro j
  induction j using Nat.strong_induction_on with
  | _ j ih =>
    match j with
    | 0 =>
      right
      have h0 : dpVal S q inf 0 = 0 := rfl
      have h0' : pcVal S q inf 0 = [] := rfl
      rw [h0, h0']
      refine ⟨hinf, expressible_zero S, by omega, rfl, List.nodup_nil, ?_⟩
      intro p hp
      exact absurd hp (List.not_mem_nil p)
    | n + 1 =>
      rcases dpVal_row_cases S hS q inf n with h | ⟨s, hsS, hsi, hne, hd, hp, hlt⟩
      · exact Or.inl h
      · right
        have hs0 : 0 < s := hS s hsS
        rcases ih (n + 1 - s) (by omega) with ⟨h1, _⟩ | ⟨_, hex, _, hsum, hnodup, hforall⟩
        · exact absurd h1 hne
        · refine ⟨hlt, ?_, ?_, ?_, ?_, ?_⟩
          · have := expressible_add S (n + 1 - s) s hsS hex
            rwa [Nat.sub_add_cancel hsi] at this
          · omega
          · rw [hp, addPackage_pcSum, hsum]
            omega
          · rw [hp]
            exact addPackage_nodup _ _ hnodup
          · rw [hp]
            exact addPackage_forall _ _ hforall
              (fun sz c hc => ⟨Nat.succ_pos c, hc.2⟩) ⟨Nat.one_pos, hsS⟩

theorem dpVal_zero_of_le (S : List Nat) (hS : ∀ x ∈ S, 0 < x) (q inf : Nat) (hinf : 0 < inf) :
    ∀ j, Expressible S j → j ≤ q → dpVal S q inf j = 0 := by
  intro j
  induction j using Nat.strong_induction_on with
  | _ j ih =>
    intro hex hjq
    by_cases hj0 : j = 0
    · subst hj0
      rfl
    · obtain ⟨s, hsS, hsj, hex'⟩ := expressible_sub S j hex (Nat.pos_of_ne_zero hj0)
      have hs0 : 0 < s := hS s hsS
      have hprev : dpVal S q inf (j - s) = 0 := ih (j - s) (by omega) hex' (by omega)
      have hle := dpVal_le S hS q inf j s (by omega) hsS hsj (by rw [hprev]; omega)
      rw [hprev] at hle
      omega

/-! ### Lemmas about the final scan (`scanStep`, `scanBest`) -/

theorem scan_foldl_spec (dp : Nat → Nat) (pc : Nat → List PackageCount) :
    ∀ (L : List Nat) (b : Nat),
      (L.foldl (scanStep dp pc) b = b ∨ L.foldl (scanStep dp pc) b ∈ L) ∧
      dp (L.foldl (scanStep dp pc) b) ≤ dp b ∧
      ∀ x ∈ L, dp (L.foldl (scanStep dp pc) b) ≤ dp x := by
  intro L
  induction L with
  | nil =>
    intro b
    exact ⟨Or.inl rfl, Nat.le_refl _, fun x hx => absurd hx (List.not_mem_nil x)⟩
  | cons a L ih =>
    intro b
    simp only [List.foldl_cons]
    obtain ⟨hmem, hle, hall⟩ := ih (scanStep dp pc b a)
    have step_le : dp (scanStep dp pc b a) ≤ dp b := by
      unfold scanStep
      split_ifs with h
      · rcases h with h | h
        · exact Nat.le_of_lt h
        · exact Nat.le_of_eq h.1
      · exact Nat.le_refl _
    have step_a : dp (scanStep dp pc b a) ≤ dp a := by
      unfold scanStep
      split_ifs with h
      · exact Nat.le_refl _
      · push_neg at h
        exact h.1
    have step_mem : scanStep dp pc b a = b ∨ scanStep dp pc b a = a := by
      unfold scanStep
      split_ifs
      · exact Or.inr rfl
      · exact Or.inl rfl
    refine ⟨?_, hle.trans step_le, ?_⟩
    · rcases hmem with h | h
      · rcases step_mem with h' | h'
        · exact Or.inl (h.trans h')
        · right
          rw [h, h']
          exact List.mem_cons_self _ _
      · exact Or.inr (List.mem_cons_of_mem _ h)
    · intro x hx
      rcases List.mem_cons.mp hx with rfl | hx'
      · exact hle.trans step_a
      · exact hall x hx'

theorem scanBest_spec (dp : Nat → Nat) (pc : Nat → List PackageCount) (q M : Nat) :
    (q ≤ scanBest dp pc q M ∧ scanBest dp pc q M ≤ q + M) ∧
    ∀ i, q ≤ i → i ≤ q + M → dp (scanBest dp pc q M) ≤ dp i := by
  obtain ⟨hmem, hle, hall⟩ := scan_foldl_spec dp pc (List.range' (q + 1) M) q
  have hbest : scanBest dp pc q M = (List.range' (q + 1) M).foldl (scanStep dp pc) q := rfl
  rw [← hbest] at hmem hle hall
  constructor
  · rcases hmem with h | h
    · rw [h]
      exact ⟨Nat.le_refl q, Nat.le_add_right q M⟩
    · have := List.mem_range'_1.mp h
      omega
  · intro i hqi hiM
    rcases Nat.eq_or_lt_of_le hqi with rfl | hlt
    · exact hle
    · exact hall i (List.mem_range'_1.mpr ⟨by omega, by omega⟩)

/-! ### The main specification of `findOptimalSolution` -/

theorem findOptimalSolution_spec (S : List Nat) (q : Nat) (hne : S ≠ [])
    (hpos : ∀ s ∈ S, 0 < s) (hq : 0 < q) :
    q ≤ (findOptimalSolution S q).1 ∧
    Expressible S (findOptimalSolution S q).1 ∧
    (∀ D, q ≤ D → Expressible S D → (findOptimalSolution S q).1 ≤ D) ∧
    (findOptimalSolution S q).1 ≤ q + (S.headD 0 - 1) ∧
    pcSum (findOptimalSolution S q).2 = (findOptimalSolution S q).1 ∧
    ((findOptimalSolution S q).2.map (fun p => p.size)).Nodup ∧
    (∀ p ∈ (findOptimalSolution S q).2, 0 < p.count ∧ p.size ∈ S) := by
  have hMmem : S.headD 0 ∈ S := by
    cases S with
    | nil => exact absurd rfl hne
    | cons a t => exact List.mem_cons_self a t
  set M := S.headD 0 with hMdef
  have hM0 : 0 < M := hpos M hMmem
  set inf := q + M + 1 with hinfdef
  have hfd : findOptimalSolution S q =
      (scanBest (fillTable S q inf (q + M)).1 (fillTable S q inf (q + M)).2 q M,
       (fillTable S q inf (q + M)).2
         (scanBest (fillTable S q inf (q + M)).1 (fillTable S q inf (q + M)).2 q M)) := rfl
  obtain ⟨k, hk1, hk2⟩ := exists_multiple_ge q M hM0
  have hkex : Expressible S (k * M) := expressible_mul S M hMmem k
  have hP : ∃ n, q ≤ n ∧ Expressible S n := ⟨k * M, hk1, hkex⟩
  haveI : DecidablePred fun n => q ≤ n ∧ Expressible S n := Classical.decPred _
  set istar := Nat.find hP with histardef
  obtain ⟨histar_q, histar_ex⟩ : q ≤ istar ∧ Expressible S istar := Nat.find_spec hP
  have histar_le : istar ≤ q + (M - 1) := (Nat.find_min' hP ⟨hk1, hkex⟩).trans hk2
  -- dp at istar equals istar - q
  obtain ⟨s, hsS, hsle, hexsub⟩ := expressible_sub S istar histar_ex (by omega)
  have hs0 : 0 < s := hpos s hsS
  have hnotP : ¬(q ≤ istar - s ∧ Expressible S (istar - s)) := Nat.find_min hP (by omega)
  have hsubq : istar - s ≤ q := by
    by_contra hcon
    exact hnotP ⟨by omega, hexsub⟩
  have hdpsub : dpVal S q inf (istar - s) = 0 :=
    dpVal_zero_of_le S hpos q inf (by omega) (istar - s) hexsub hsubq
  have hup : dpVal S q inf istar ≤ istar - q := by
    have := dpVal_le S hpos q inf istar s (by omega) hsS hsle (by rw [hdpsub]; omega)
    rw [hdpsub] at this
    omega
  have histar_dp : dpVal S q inf istar = istar - q := by
    rcases dp_invariant S hpos q inf (by omega) istar with ⟨h1, _⟩ | ⟨_, _, hlow, _⟩
    · omega
    · omega
  -- the scan selects exactly istar
  set table := fillTable S q inf (q + M) with htabledef
  set b := scanBest table.1 table.2 q M with hbdef
  obtain ⟨⟨hbq, hbM⟩, hmin⟩ := scanBest_spec table.1 table.2 q M
  have hb_dp : table.1 b = dpVal S q inf b := (fillTable_eq_dpVal S q inf (q + M) b hbM).1
  have hb_pc : table.2 b = pcVal S q inf b := (fillTable_eq_dpVal S q inf (q + M) b hbM).2
  have histar_rng : istar ≤ q + M := by omega
  have histar_tbl : table.1 istar = dpVal S q inf istar :=
    (fillTable_eq_dpVal S q inf (q + M) istar histar_rng).1
  have hble : dpVal S q inf b ≤ istar - q := by
    have := hmin istar histar_q histar_rng
    rw [hb_dp, histar_tbl, histar_dp] at this
    exact this
  have hbinv := dp_invariant S hpos q inf (by omega) b
  rcases hbinv with ⟨h1, _⟩ | ⟨_, hbex, hblow, hbsum, hbnodup, hbforall⟩
  · omega
  · have hbge : istar ≤ b := Nat.find_min' hP ⟨hbq, hbex⟩
    have hbeq : b = istar := by omega
    rw [hfd]
    simp only
    rw [hb_pc]
    refine ⟨hbq, hbex, ?_, by omega, hbsum, hbnodup, hbforall⟩
    intro D hD1 hD2
    have : istar ≤ D := Nat.find_min' hP ⟨hD1, hD2⟩
    omega

/-! ### Unfolding `Optimize` on the positive path -/

theorem optimize_pos_eq (S : List Nat) (quantity : Int) (hq : 0 < quantity) :
    Optimize S quantity = .ok ⟨quantity, ((findOptimalSolution S quantity.toNat).1 : Int),
      ((findOptimalSolution S quantity.toNat).1 : Int) - quantity,
      (findOptimalSolution S quantity.toNat).2.filter (fun p => decide (0 < p.count))⟩ := by
  unfold Optimize
  rw [if_neg (by omega), if_neg (by omega)]

theorem optimize_pos_parts (S : List Nat) (quantity : Int) (hne : S ≠ [])
    (hpos : ∀ s ∈ S, 0 < s) (hq : 0 < quantity) (r : OptimizationResult)
    (hr : Optimize S quantity = .ok r) :
    ∃ (b : Nat) (pk : List PackageCount),
      r = ⟨quantity, (b : Int), (b : Int) - quantity, pk⟩ ∧
      quantity.toNat ≤ b ∧ Expressible S b ∧
      (∀ D, quantity.toNat ≤ D → Expressible S D → b ≤ D) ∧
      b ≤ quantity.toNat + (S.headD 0 - 1) ∧ 0 < S.headD 0 ∧
      pcSum pk = b ∧ (pk.map (fun p => p.size)).Nodup ∧
      (∀ p ∈ pk, 0 < p.count ∧ p.size ∈ S) := by
  have hqn : 0 < quantity.toNat := by omega
  obtain ⟨h1, h2, h3, h4, h5, h6, h7⟩ :=
    findOptimalSolution_spec S quantity.toNat hne hpos hqn
  have hM0 : 0 < S.headD 0 := by
    cases S with
    | nil => exact absurd rfl hne
    | cons a t => exact hpos a (List.mem_cons_self a t)
  have hfilter : (findOptimalSolution S quantity.toNat).2.filter
      (fun p => decide (0 < p.count)) = (findOptimalSolution S quantity.toNat).2 :=
    List.filter_eq_self.mpr fun p hp => decide_eq_true (h7 p hp).1
  have hopt := optimize_pos_eq S quantity hq
  rw [hfilter] at hopt
  have hrEq := Except.ok.inj (hopt.symm.trans hr)
  exact ⟨(findOptimalSolution S quantity.toNat).1, (findOptimalSolution S quantity.toNat).2,
    hrEq.symm, h1, h2, h3, h4, hM0, h5, h6, h7⟩

theorem optimize_zero_eq (S : List Nat) :
    Optimize S 0 = .ok ⟨0, 0, 0, []⟩ := by
  unfold Optimize
  rw [if_neg (by omega), if_pos rfl]

/-! ### The claims -/

/-- Claim C1: for every valid catalog and every quantity > 0, the result of
`Optimize` has minimal over-delivery — no delivered quantity `D ≥ quantity`
expressible as a non-negative integer combination of catalog sizes has strictly
smaller over-delivery (`D - quantity`) than the returned result's. -/
theorem optimize_minimal_over_delivery (S : List Nat) (quantity : Int) (hne : S ≠ [])
    (hpos : ∀ s ∈ S, 0 < s) (hq : 0 < quantity) (r : OptimizationResult)
    (hr : Optimize S quantity = .ok r) (D : Nat) (hD : quantity ≤ (D : Int))
    (hDex : Expressible S D) :
    r.overDelivery ≤ (D : Int) - quantity := by
  obtain ⟨b, pk, hrEq, _, _, hminD, _, _, _, _, _⟩ :=
    optimize_pos_parts S quantity hne hpos hq r hr
  subst hrEq
  have hbD : b ≤ D := hminD D (by omega) hDex
  show (b : Int) - quantity ≤ (D : Int) - quantity
  omega

/-- Claim C1 witness: catalog `[3, 2]`, quantity 1, candidate `D = 3` (one
3-package); the returned over-delivery 1 is at most `3 - 1`. -/
theorem optimize_minimal_over_delivery_witness :
    Optimize [3, 2] 1 = .ok ⟨1, 2, 1, [⟨2, 1⟩]⟩ ∧
    (⟨1, 2, 1, [⟨2, 1⟩]⟩ : OptimizationResult).overDelivery ≤ ((3 : Nat) : Int) - 1 := by
  constructor
  · rfl
  · exact optimize_minimal_over_delivery [3, 2] 1 (by decide) (by decide) (by decide)
      ⟨1, 2, 1, [⟨2, 1⟩]⟩ rfl 3 (by decide) ⟨[3], by decide, rfl⟩

/-- Claim C2 is false of the code: the DP tie-break compares the length of the
breakdown list (the number of distinct package sizes, and adds 1 even when size
`s` is already present) rather than the total package count. For the catalog
`{4, 3, 1}` and quantity 6, `Optimize` delivers 6 using packages `{1: 2, 4: 1}` —
three packages in total — while the combination `3 + 3` of catalog sizes also
sums to 6 (tying over-delivery at 0) with only two packages. -/
theorem optimize_tie_break_not_total_count :
    Optimize [4, 3, 1] 6 = .ok ⟨6, 6, 0, [⟨1, 2⟩, ⟨4, 1⟩]⟩ ∧
    totalCount [(⟨1, 2⟩ : PackageCount), ⟨4, 1⟩] = 3 ∧
    (∀ x ∈ [(3 : Nat), 3], x ∈ [(4 : Nat), 3, 1]) ∧
    ([(3 : Nat), 3]).sum = 6 ∧
    ([(3 : Nat), 3]).length = 2 := by
  refine ⟨rfl, rfl, by decide, rfl, rfl⟩

/-- Claim C3: for every valid catalog and quantity ≥ 0, `Optimize` delivers at
least the request, its over-delivery is exactly `total_delivered - requested`
and is non-negative, and for quantity > 0 the over-delivery is at most `M - 1`
for `M` the first (largest) catalog size. -/
theorem optimize_delivery_bounds (S : List Nat) (quantity : Int) (hne : S ≠ [])
    (hpos : ∀ s ∈ S, 0 < s) (h0 : 0 ≤ quantity) (r : OptimizationResult)
    (hr : Optimize S quantity = .ok r) :
    quantity ≤ r.totalDelivered ∧ r.overDelivery = r.totalDelivered - r.requested ∧
    0 ≤ r.overDelivery ∧ (0 < quantity → r.overDelivery ≤ ((S.headD 0 : Nat) : Int) - 1) := by
  by_cases hq : quantity = 0
  · subst hq
    have hrEq := Except.ok.inj ((optimize_zero_eq S).symm.trans hr)
    subst hrEq
    refine ⟨?_, rfl, ?_, ?_⟩
    · show (0 : Int) ≤ (0 : Int)
      omega
    · show (0 : Int) ≤ (0 : Int)
      omega
    · intro h
      exact absurd h (by omega)
  · have hq' : 0 < quantity := by omega
    obtain ⟨b, pk, hrEq, hbq, _, _, hbub, hM0, _, _, _⟩ :=
      optimize_pos_parts S quantity hne hpos hq' r hr
    subst hrEq
    refine ⟨?_, rfl, ?_, ?_⟩
    · show quantity ≤ (b : Int)
      omega
    · show (0 : Int) ≤ (b : Int) - quantity
      omega
    · intro _
      show (b : Int) - quantity ≤ ((S.headD 0 : Nat) : Int) - 1
      omega

/-- Claim C3 witness: catalog `[2]`, quantity 3 — delivered 4, over-delivery 1,
within the bound `2 - 1`. -/
theorem optimize_delivery_bounds_witness :
    Optimize [2] 3 = .ok ⟨3, 4, 1, [⟨2, 2⟩]⟩ ∧
    ((3 : Int) ≤ (⟨3, 4, 1, [⟨2, 2⟩]⟩ : OptimizationResult).totalDelivered ∧
      (⟨3, 4, 1, [⟨2, 2⟩]⟩ : OptimizationResult).overDelivery =
        (⟨3, 4, 1, [⟨2, 2⟩]⟩ : OptimizationResult).totalDelivered -
          (⟨3, 4, 1, [⟨2, 2⟩]⟩ : OptimizationResult).requested ∧
      0 ≤ (⟨3, 4, 1, [⟨2, 2⟩]⟩ : OptimizationResult).overDelivery ∧
      (0 < (3 : Int) → (⟨3, 4, 1, [⟨2, 2⟩]⟩ : OptimizationResult).overDelivery ≤
        (((([2] : List Nat).headD 0) : Nat) : Int) - 1)) := by
  constructor
  · rfl
  · exact optimize_delivery_bounds [2] 3 (by decide) (by decide) (by decide)
      ⟨3, 4, 1, [⟨2, 2⟩]⟩ rfl

/-- Claim C4: for every successful `Optimize` call, `total_delivered` equals the
sum over the returned packages mapping of size × count, the keys (sizes) are
distinct and drawn from the catalog, and every count in the mapping is strictly
positive. -/
theorem optimize_packages_wf (S : List Nat) (quantity : Int) (hne : S ≠ [])
    (hpos : ∀ s ∈ S, 0 < s) (h0 : 0 ≤ quantity) (r : OptimizationResult)
    (hr : Optimize S quantity = .ok r) :
    r.totalDelivered = ((pcSum r.packages : Nat) : Int) ∧
    (r.packages.map (fun p => p.size)).Nodup ∧
    (∀ p ∈ r.packages, 0 < p.count ∧ p.size ∈ S) := by
  by_cases hq : quantity = 0
  · subst hq
    have hrEq := Except.ok.inj ((optimize_zero_eq S).symm.trans hr)
    subst hrEq
    exact ⟨rfl, List.nodup_nil, fun p hp => absurd hp (List.not_mem_nil p)⟩
  · have hq' : 0 < quantity := by omega
    obtain ⟨b, pk, hrEq, _, _, _, _, _, hsum, hnodup, hforall⟩ :=
      optimize_pos_parts S quantity hne hpos hq' r hr
    subst hrEq
    refine ⟨?_, hnodup, hforall⟩
    show (b : Int) = ((pcSum pk : Nat) : Int)
    rw [hsum]

/-- Claim C4 witness: catalog `[2]`, quantity 3 — packages `{2: 2}` sum to the
delivered 4, with distinct positive-count catalog keys. -/
theorem optimize_packages_wf_witness :
    Optimize [2] 3 = .ok ⟨3, 4, 1, [⟨2, 2⟩]⟩ ∧
    ((⟨3, 4, 1, [⟨2, 2⟩]⟩ : OptimizationResult).totalDelivered =
        ((pcSum [(⟨2, 2⟩ : PackageCount)] : Nat) : Int) ∧
      (([(⟨2, 2⟩ : PackageCount)]).map (fun p => p.size)).Nodup ∧
      (∀ p ∈ [(⟨2, 2⟩ : PackageCount)], 0 < p.count ∧ p.size ∈ ([2] : List Nat))) := by
  constructor
  · rfl
  · exact optimize_packages_wf [2] 3 (by decide) (by decide) (by decide)
      ⟨3, 4, 1, [⟨2, 2⟩]⟩ rfl

/-- Claim C5 counterexample: the constructor does not collapse duplicate sizes —
`NewOptimizer [2, 2]` returns the catalog `[2, 2]`, which is not duplicate-free. -/
theorem newOptimizer_keeps_duplicates :
    NewOptimizer [2, 2] = .ok [2, 2] ∧ ¬ ([(2 : Nat), 2].Nodup) :=
  ⟨rfl, by decide⟩

/-- Claim C5 amended: every successfully constructed catalog is sorted in
descending order, and it is a permutation of the input sizes — duplicate sizes
in the input are preserved in the catalog (neither collapsed nor rejected). -/
theorem newOptimizer_sorted_desc_perm (l : List Int) (S' : List Nat)
    (h : NewOptimizer l = .ok S') :
    List.Sorted (fun a b => b ≤ a) S' ∧ S'.Perm (l.map Int.toNat) := by
  unfold NewOptimizer at h
  by_cases h1 : l.length = 0
  · rw [if_pos h1] at h
    exact absurd h (by simp)
  · rw [if_neg h1] at h
    by_cases h2 : l.any (fun s => decide (s ≤ 0)) = true
    · rw [if_pos h2] at h
      exact absurd h (by simp)
    · rw [if_neg h2] at h
      have hS' := (ConstructOutcome.ok.inj h).symm
      subst hS'
      haveI : IsTotal Nat fun a b : Nat => b ≤ a := ⟨fun a b => le_total b a⟩
      haveI : IsTrans Nat fun a b : Nat => b ≤ a := ⟨fun _ _ _ ha hb => le_trans hb ha⟩
      exact ⟨List.sorted_insertionSort _ _, List.perm_insertionSort _ _⟩

/-- Claim C5 witness: `[2, 3, 2]` constructs the catalog `[3, 2, 2]`, sorted
descending and a permutation of the input (duplicates kept). -/
theorem newOptimizer_sorted_desc_perm_witness :
    NewOptimizer [2, 3, 2] = .ok [3, 2, 2] ∧
    (List.Sorted (fun a b => b ≤ a) ([3, 2, 2] : List Nat) ∧
      ([3, 2, 2] : List Nat).Perm (([2, 3, 2] : List Int).map Int.toNat)) :=
  ⟨rfl, newOptimizer_sorted_desc_perm [2, 3, 2] [3, 2, 2] rfl⟩

/-- Claim C6 is false of the code: on an empty or non-positive catalog the
constructor does not return a failure value — it panics (an unrecoverable
abort). -/
theorem newOptimizer_aborts_on_invalid :
    NewOptimizer [] = .panics "package sizes cannot be empty" ∧
    NewOptimizer [0] = .panics "package sizes must be positive" :=
  ⟨rfl, rfl⟩

/-- Claim C6 amended: construction panics exactly when the input is empty or
contains a non-positive element, and succeeds for every non-empty collection of
positive integers. -/
theorem newOptimizer_panic_iff (l : List Int) :
    ((∃ m, NewOptimizer l = .panics m) ↔ (l = [] ∨ ∃ x ∈ l, x ≤ 0)) ∧
    ((l ≠ [] ∧ ∀ x ∈ l, 0 < x) → ∃ S', NewOptimizer l = .ok S') := by
  constructor
  · constructor
    · rintro ⟨m, hm⟩
      unfold NewOptimizer at hm
      by_cases h1 : l.length = 0
      · exact Or.inl (List.length_eq_zero.mp h1)
      · rw [if_neg h1] at hm
        by_cases h2 : l.any (fun s => decide (s ≤ 0)) = true
        · right
          simpa using h2
        · rw [if_neg h2] at hm
          exact absurd hm (by simp)
    · intro h
      unfold NewOptimizer
      rcases h with rfl | ⟨x, hx, hx0⟩
      · exact ⟨_, rfl⟩
      · by_cases h1 : l.length = 0
        · exact ⟨_, by rw [if_pos h1]⟩
        · have h2 : l.any (fun s => decide (s ≤ 0)) = true := by
            simp only [List.any_eq_true, decide_eq_true_eq]
            exact ⟨x, hx, hx0⟩
          exact ⟨_, by rw [if_neg h1, if_pos h2]⟩
  · rintro ⟨hne, hall⟩
    unfold NewOptimizer
    have h1 : ¬ l.length = 0 := by
      simpa [List.length_eq_zero] using hne
    have h2 : ¬ l.any (fun s => decide (s ≤ 0)) = true := by
      simp only [List.any_eq_true, decide_eq_true_eq, not_exists, not_and, not_le]
      exact fun x hx => hall x hx
    exact ⟨_, by rw [if_neg h1, if_neg h2]⟩

/-- Claim C6 witness: `[0]` makes the constructor panic; `[3, 2]` constructs
successfully. -/
theorem newOptimizer_panic_iff_witness :
    (∃ m, NewOptimizer [0] = .panics m) ∧ (∃ S', NewOptimizer [3, 2] = .ok S') :=
  ⟨(newOptimizer_panic_iff [0]).1.mpr (Or.inr ⟨0, by decide, by decide⟩),
   (newOptimizer_panic_iff [3, 2]).2 ⟨by decide, by decide⟩⟩

/-- Claim C7: `Optimize` fails exactly when the quantity is negative (and then
only the error value is produced, no result), and succeeds for every quantity
≥ 0 on a valid catalog. -/
theorem optimize_error_iff (S : List Nat) (quantity : Int) (_hne : S ≠ [])
    (_hpos : ∀ s ∈ S, 0 < s) :
    ((∃ e, Optimize S quantity = .error e) ↔ quantity < 0) ∧
    (0 ≤ quantity → ∃ r, Optimize S quantity = .ok r) := by
  constructor
  · constructor
    · rintro ⟨e, he⟩
      unfold Optimize at he
      by_contra h
      rw [if_neg h] at he
      split_ifs at he
    · intro h
      unfold Optimize
      rw [if_pos h]
      exact ⟨_, rfl⟩
  · intro h
    unfold Optimize
    rw [if_neg (by omega)]
    split_ifs
    · exact ⟨_, rfl⟩
    · exact ⟨_, rfl⟩

/-- Claim C7 witness: on catalog `[2]`, quantity `-1` yields an error and
quantity `2` yields a result. -/
theorem optimize_error_iff_witness :
    (∃ e, Optimize [2] (-1) = .error e) ∧ (∃ r, Optimize [2] 2 = .ok r) :=
  ⟨(optimize_error_iff [2] (-1) (by decide) (by decide)).1.mpr (by decide),
   (optimize_error_iff [2] 2 (by decide) (by decide)).2 (by decide)⟩

/-- Claim C8: quantity 0 returns the all-zero result with an empty packages
mapping, and the returned packages mapping is empty exactly when the requested
quantity is 0 — so it is non-empty for every positive quantity. -/
theorem optimize_zero_and_packages_nonempty (S : List Nat) (quantity : Int)
    (hne : S ≠ []) (hpos : ∀ s ∈ S, 0 < s) (h0 : 0 ≤ quantity)
    (r : OptimizationResult) (hr : Optimize S quantity = .ok r) :
    (quantity = 0 → r = ⟨0, 0, 0, []⟩) ∧ (r.packages = [] ↔ r.requested = 0) := by
  by_cases hq : quantity = 0
  · subst hq
    have hrEq := Except.ok.inj ((optimize_zero_eq S).symm.trans hr)
    subst hrEq
    exact ⟨fun _ => rfl, by simp⟩
  · have hq' : 0 < quantity := by omega
    obtain ⟨b, pk, hrEq, hbq, _, _, _, _, hsum, _, _⟩ :=
      optimize_pos_parts S quantity hne hpos hq' r hr
    subst hrEq
    refine ⟨fun h => absurd h hq, ?_⟩
    constructor
    · intro hpk
      have hpk' : pk = [] := hpk
      rw [hpk'] at hsum
      have hb0 : b = 0 := by simpa [pcSum] using hsum.symm
      exfalso
      omega
    · intro hreq
      have h' : quantity = 0 := hreq
      exact absurd h' hq

/-- Claim C8 witness: catalog `[2]` — quantity 0 gives the all-zero result;
quantity 3 gives a non-empty packages mapping. -/
theorem optimize_zero_and_packages_nonempty_witness :
    Optimize [2] 0 = .ok ⟨0, 0, 0, []⟩ ∧
    Optimize [2] 3 = .ok ⟨3, 4, 1, [⟨2, 2⟩]⟩ ∧
    ((⟨3, 4, 1, [⟨2, 2⟩]⟩ : OptimizationResult).packages = [] ↔
      (⟨3, 4, 1, [⟨2, 2⟩]⟩ : OptimizationResult).requested = 0) := by
  refine ⟨rfl, rfl, ?_⟩
  exact (optimize_zero_and_packages_nonempty [2] 3 (by decide) (by decide) (by decide)
    ⟨3, 4, 1, [⟨2, 2⟩]⟩ rfl).2

/-- Claim C9: `Optimize` is deterministic — two calls with the same catalog and
quantity return identical results (the embedding is a pure function of its
arguments; the Go code reads no clock, randomness or other ambient state). -/
theorem optimize_deterministic (S : List Nat) (quantity : Int)
    (r₁ r₂ : Except String OptimizationResult) (h₁ : Optimize S quantity = r₁)
    (h₂ : Optimize S quantity = r₂) : r₁ = r₂ := by
  rw [← h₁, ← h₂]

/-- Claim C9 witness: two evaluations on catalog `[2]`, quantity 3 agree. -/
theorem optimize_deterministic_witness :
    (Except.ok (⟨3, 4, 1, [⟨2, 2⟩]⟩ : OptimizationResult) : Except String OptimizationResult) =
      .ok ⟨3, 4, 1, [⟨2, 2⟩]⟩ :=
  optimize_deterministic [2] 3 _ _ rfl rfl

/-- Claim C10: the constructor leaves the caller's slice untouched (it sorts a
fresh copy), and `Optimize` leaves the optimizer's stored catalog untouched, so
any later call observes the catalog produced at construction. The mutation
analysis lives in the translation of `NewOptimizerWithCaller` and
`OptimizeWithState`, whose second components record the post-call stores. -/
theorem newOptimizer_optimize_frame :
    ∀ (l : List Int) (S : List Nat) (quantity quantity₂ : Int),
      (NewOptimizerWithCaller l).2 = l ∧
      (OptimizeWithState S quantity).2 = S ∧
      (OptimizeWithState S quantity).1 = Optimize S quantity ∧
      Optimize (OptimizeWithState S quantity).2 quantity₂ = Optimize S quantity₂ :=
  fun _ _ _ _ => ⟨rfl, rfl, rfl, rfl⟩

end PackageOptimizer

